import Mathlib

/-!
Verification of the retrieval-and-grounding pipeline of the verkiezingen_bot
repository (files `app/indexer.py` and `app/qa.py`), against its natural
language specification.

Python strings are modelled as `List Char` (`Str`); Python `str.strip`,
`str.split("\n")`, negative slicing and `"\n".join` are embedded as executable
Lean functions with the exact semantics of their CPython counterparts on the
whitespace alphabet Python uses for ASCII text.  Machine floats returned by the
external embedding / cross-encoder models never enter any verified computation:
they are abstracted as an ordered score assignment (`Nat → Int`), since only
their ordering is consumed by the code under verification.
-/

namespace VBot

/-- Python strings, modelled as lists of characters. -/
abbrev Str := List Char

/-- Coerce a Lean string literal to the model type. -/
def strOf (s : String) : Str := s.data

/-- The whitespace class of Python `str.strip` / regex `\s` (ASCII part):
space, tab, newline, carriage return, vertical tab, form feed. -/
def pyIsSpace (c : Char) : Bool :=
  c == ' ' || c == '\t' || c == '\n' || c == '\r' || c == '\x0b' || c == '\x0c'

/-- Python `s.strip()`: drop leading and trailing whitespace. -/
def pyStrip (s : Str) : Str :=
  ((s.dropWhile pyIsSpace).reverse.dropWhile pyIsSpace).reverse

/-- Python `s.split("\n")`: split at every newline, keeping empty pieces
(`"".split("\n") == [""]`). -/
def pySplitNl : Str → List Str
  | [] => [[]]
  | c :: cs =>
    if c = '\n' then [] :: pySplitNl cs
    else
      match pySplitNl cs with
      | [] => [[c]]
      | r :: rs => (c :: r) :: rs

/-- Python negative slice `s[-n:]` (for `n = 0` this is the whole string,
exactly as in Python where `s[-0:] = s[0:] = s`). -/
def pyNegSlice (s : Str) (n : Nat) : Str :=
  if n = 0 then s else s.drop (s.length - n)

/-- Python `sep.join(parts)`. -/
def pyJoin (sep : Str) : List Str → Str
  | [] => []
  | [x] => x
  | x :: y :: t => x ++ sep ++ pyJoin sep (y :: t)

/-! ### Chunker: `indexer.split_into_chunks` -/

/-- `MAX_CHUNK_CHARS` from `indexer.py`. -/
def MAX_CHUNK_CHARS : Nat := 1500

/-- `CHUNK_OVERLAP_CHARS` from `indexer.py`. -/
def CHUNK_OVERLAP_CHARS : Nat := 200

/-- The paragraph loop of `split_into_chunks` (`indexer.py` lines 40-51):
greedily accumulate paragraphs into `current`; when appending the next
paragraph would overflow, close `current` (stripped) and seed the next buffer
with the trailing `overlap` characters of the old one; finally append the
stripped last buffer when it is non-empty. -/
def splitLoop (maxC ov : Nat) : List Str → List Str → Str → List Str
  | [], chunks, current =>
    if pyStrip current ≠ [] then chunks ++ [pyStrip current] else chunks
  | para :: rest, chunks, current =>
    if current ≠ [] ∧ maxC < current.length + para.length + 1 then
      splitLoop maxC ov rest (chunks ++ [pyStrip current])
        ((if ov < current.length then pyNegSlice current ov else current)
          ++ '\n' :: para)
    else
      splitLoop maxC ov rest chunks
        (if current = [] then para else current ++ '\n' :: para)

/-- `indexer.split_into_chunks(text, max_chars, overlap)` (lines 30-53). -/
def split_into_chunks (text : Str) (maxC : Nat := MAX_CHUNK_CHARS)
    (ov : Nat := CHUNK_OVERLAP_CHARS) : List Str :=
  if text.length ≤ maxC then [text]
  else splitLoop maxC ov (pySplitNl text) [] []

/-! ### Data model: chunk records and source records (`qa.py`) -/

/-- A chunk record as stored in `chunks.pkl` (the fields `qa.py` reads). -/
structure Chunk where
  text : Str
  bron_url : Str
  titel : Str
  sectie : Str
  heading : Str
deriving DecidableEq, Repr

/-- A source record as produced by `QAEngine._get_sources_by_indices`. -/
structure Source where
  titel : Str
  url : Str
  sectie : Str
deriving DecidableEq, Repr

/-- The source record built from a chunk (`qa.py` lines 210-214). -/
def mkSource (c : Chunk) : Source := ⟨c.titel, c.bron_url, c.sectie⟩

/-! ### `QAEngine._load` (qa.py lines 73-87)

`_load` deserialises the FAISS index (`faiss.read_index`) and the pickled
chunk list and stores both on the engine.  The deserialised artefacts are the
inputs here; an `Except` result makes room for a fatal integrity error.  The
body of `_load` performs no comparison whatsoever between the two artefacts:
it stores whatever was read. -/

/-- The loaded (vector index, chunk sequence) pair held by the engine. -/
structure LoadedEngine where
  index : List (List Int)
  chunks : List Chunk
deriving DecidableEq, Repr

/-- `QAEngine._load`, given the two deserialised artefacts.  Mirrors qa.py
lines 83-87: the pair is stored as-is, with no cross-validation. -/
def qa_load (faissIndex : List (List Int)) (pickledChunks : List Chunk) :
    Except Str LoadedEngine :=
  Except.ok ⟨faissIndex, pickledChunks⟩

/-- Whether a load attempt succeeded. -/
def loadSucceeds (r : Except Str LoadedEngine) : Bool :=
  match r with
  | Except.ok _ => true
  | Except.error _ => false

/-! ### `QAEngine.search` (qa.py lines 145-182)

The semantic candidates (`indices[0]` from FAISS) and the lexical candidates
(`_chunk_idx` of the keyword results) are poured into a Python `set`; the set
is turned back into a list (line 168) whose order is whatever order `list()`
enumerates the hash set in — Python sets do not preserve insertion order.
The cross-encoder scores (line 172) are external model outputs; only their
ordering is consumed, so they are abstracted as `score : Nat → Int`.
`combined.sort(key=..., reverse=True)` is a stable descending sort, which is
exactly `List.insertionSort` with the relation `score b ≤ score a`. -/

/-- `candOrder` is a possible result of `list(candidate_indices)` for the set
fed from the list `u` of inserted ordinals: duplicate-free and containing
exactly the members of `u`.  Python guarantees nothing more about the order. -/
def IsSetList (candOrder u : List Nat) : Prop :=
  candOrder.Nodup ∧ (∀ x ∈ candOrder, x ∈ u) ∧ ∀ x ∈ u, x ∈ candOrder

/-- Steps 3-4 of `QAEngine.search` (qa.py lines 167-182): stable-sort the
candidate list by cross-encoder score, descending, and keep the top `k`. -/
def search (score : Nat → Int) (k : Nat) (candOrder : List Nat) : List Nat :=
  (List.insertionSort (fun a b => score b ≤ score a) candOrder).take k

/-- First-occurrence deduplication with an already-seen accumulator. -/
def dedupFirstAux : List Nat → List Nat → List Nat
  | [], _ => []
  | x :: xs, seen =>
    if x ∈ seen then dedupFirstAux xs seen
    else x :: dedupFirstAux xs (x :: seen)

/-- First-occurrence deduplication, i.e. the candidate list the spec's
tie-break clause presupposes: insertion order with semantic candidates first
(`dedupFirst (semIdx ++ lexIdx)`). -/
def dedupFirst (l : List Nat) : List Nat := dedupFirstAux l []

/-! ### `QAEngine.build_context` (qa.py lines 184-197) -/

/-- `MAX_CONTEXT_CHARS` from `qa.py`. -/
def MAX_CONTEXT_CHARS : Nat := 10000

/-- The numbered label `f"[{i}]\n"` prefixed to chunk `i` (1-based). -/
def labelFor (i : Nat) : Str := '[' :: (Nat.repr i).data ++ [']', '\n']

/-- The rendered unit `f"[{i}]\n{chunk['text']}\n"` (qa.py line 189). -/
def partFor (i : Nat) (text : Str) : Str := labelFor i ++ text ++ ['\n']

/-- The accumulation loop of `build_context` (qa.py lines 188-196): include
full units while they fit in `maxC`; on the first overflow, append a
`...`-suffixed truncation only when the remaining budget exceeds 100, then
stop.  `total` counts the characters of the full units included so far. -/
def ctxLoop (maxC : Nat) : Nat → Nat → List Str → List Str
  | _, _, [] => []
  | i, total, t :: rest =>
    if maxC < total + (partFor i t).length then
      if 100 < maxC - total then
        [(partFor i t).take (maxC - total) ++ strOf "..."]
      else []
    else partFor i t :: ctxLoop maxC (i + 1) (total + (partFor i t).length) rest

/-- `QAEngine.build_context` with an explicit budget; the joined parts
(`"\n".join(context_parts)`, line 197). -/
def buildContextGen (maxC : Nat) (texts : List Str) : Str :=
  pyJoin ['\n'] (ctxLoop maxC 1 0 texts)

/-- `QAEngine.build_context(chunks)` (qa.py lines 184-197). -/
def build_context (chunks : List Chunk) : Str :=
  buildContextGen MAX_CONTEXT_CHARS (chunks.map Chunk.text)

/-! ### `QAEngine._get_sources_by_indices` (qa.py lines 199-215) -/

/-- The loop of `_get_sources_by_indices`: skip out-of-range indices
(`idx < 0 or idx >= len(chunks)`), then keep the chunk's source record when
its URL is non-empty (`if key`) and unseen.  `seen` is a Python set of URLs
(membership only), `acc` the output list built in order. -/
def gsAux (chunks : List Chunk) : List Int → List Str → List Source → List Source
  | [], _, acc => acc
  | idx :: rest, seen, acc =>
    if h : 0 ≤ idx ∧ idx.toNat < chunks.length then
      let chunk := chunks.get ⟨idx.toNat, h.2⟩
      if chunk.bron_url ≠ [] ∧ chunk.bron_url ∉ seen then
        gsAux chunks rest (seen ++ [chunk.bron_url]) (acc ++ [mkSource chunk])
      else gsAux chunks rest seen acc
    else gsAux chunks rest seen acc

/-- `QAEngine._get_sources_by_indices(chunks, indices)`. -/
def get_sources_by_indices (chunks : List Chunk) (indices : List Int) :
    List Source :=
  gsAux chunks indices [] []

/-! ### `QAEngine._parse_used_passages` (qa.py lines 217-226)

`re.search(r"GEBRUIKTE PASSAGES:\s*\[?([\d,\s]+)\]?", answer, re.IGNORECASE)`
is embedded as a leftmost-match scanner.  At a given offset the pattern
matches iff the case-folded literal `gebruikte passages:` is present, followed
by (greedy `\s*`, optional `[`, one-or-more of `[\d,\s]`, optional `]`) with
Python's backtracking semantics: when the maximal whitespace run is followed
by neither `[`+class-char nor a class character, the regex engine gives the
last whitespace character back to the group (`[\d,\s]+` accepts whitespace),
so the match still succeeds with a digit-free group whenever `\s*` consumed at
least one character. -/

/-- A character of the class `[\d,\s]`. -/
def classChar (c : Char) : Bool := c.isDigit || c == ',' || pyIsSpace c

/-- The marker literal, lower-cased: `"gebruikte passages:"` (19 chars). -/
def markerLit : Str := strOf "gebruikte passages:"

/-- Try to match the marker pattern at the start of `s`; on success return
group 1 (the `[\d,\s]+` capture). -/
def matchAt (s : Str) : Option Str :=
  if (s.take 19).map Char.toLower = markerLit then
    let tail := s.drop 19
    let ws := tail.takeWhile pyIsSpace
    let r := tail.dropWhile pyIsSpace
    match r with
    | '[' :: r2 =>
      match r2 with
      | c :: _ =>
        if classChar c then some (r2.takeWhile classChar)
        else if ws ≠ [] then some [ws.getLast!] else none
      | [] => if ws ≠ [] then some [ws.getLast!] else none
    | c :: _ =>
      if classChar c then some (r.takeWhile classChar)
      else if ws ≠ [] then some [ws.getLast!] else none
    | [] => if ws ≠ [] then some [ws.getLast!] else none
  else none

/-- Leftmost search for the marker: return the match offset and group 1. -/
def findMarkerAux : Nat → Str → Option (Nat × Str)
  | _, [] => none
  | i, s@(_ :: cs) =>
    match matchAt s with
    | some g => some (i, g)
    | none => findMarkerAux (i + 1) cs

/-- `re.findall(r"\d+", s)`: the maximal digit runs of `s`, in order.
Implemented by a right fold carrying whether the previous (right-hand)
character was a digit. -/
def digitRuns (s : Str) : List Str :=
  (s.foldr
    (fun c st =>
      if c.isDigit then
        match st with
        | (runs, true) =>
          match runs with
          | run :: rs => ((c :: run) :: rs, true)
          | [] => ([[c]], true)
        | (runs, false) => ([c] :: runs, true)
      else (st.1, false))
    ([], false)).1

/-- Decimal value of a digit run. -/
def decVal (s : Str) : Nat :=
  s.foldl (fun n c => n * 10 + (c.toNat - 48)) 0

/-- `QAEngine._parse_used_passages(answer)` (qa.py lines 217-226): locate the
marker, turn each parsed number `n` into the 0-based index `n - 1`, and strip
everything from the match onwards (plus surrounding whitespace) from the
answer.  Without a match: `(answer.strip(), [])`. -/
def parse_used_passages (answer : Str) : Str × List Int :=
  match findMarkerAux 0 answer with
  | some (i, group) =>
    (pyStrip (answer.take i),
     (digitRuns group).map (fun run => (decVal run : Int) - 1))
  | none => (pyStrip answer, [])

/-! ### `QAEngine.ask` (qa.py lines 228-272)

`ask` first runs `search` and `build_context`; the ranked chunk list is the
parameter `chunks` here.  The LLM call (lines 246-255) is an external
capability: `Except.ok raw` is a returned completion, `Except.error e` a
raised exception, in which case the handler (lines 257-259) substitutes the
apology answer and an empty `used_indices`.  Either way the source-selection
code (lines 261-266) then runs: the parsed indices when non-empty, otherwise
the top-1 fallback `[0]`. -/

/-- The result dict of `ask` (lines 268-272). -/
structure AskResult where
  answer : Str
  sources : List Source
  chunks : List Chunk
deriving DecidableEq, Repr

/-- The apology answer from the `except` handler (qa.py line 258). -/
def apology (e : Str) : Str :=
  strOf "Er ging iets mis bij het genereren van het antwoord: " ++ e

/-- `QAEngine.ask`, parameterised by the ranked chunks and the LLM outcome. -/
def ask (chunks : List Chunk) (llm : Except Str Str) : AskResult :=
  let parsed : Str × List Int :=
    match llm with
    | Except.ok raw => parse_used_passages raw
    | Except.error e => (apology e, [])
  let sources :=
    if parsed.2 ≠ [] then get_sources_by_indices chunks parsed.2
    else get_sources_by_indices chunks [0]
  ⟨parsed.1, sources, chunks⟩

/-! ### Helper lemmas on the string model -/

theorem mem_dropWhile_of_not {p : Char → Bool} {c : Char} :
    ∀ {l : Str}, c ∈ l → p c = false → c ∈ l.dropWhile p := by
  intro l
  induction l with
  | nil => intro h _; cases h
  | cons a t ih =>
    intro hm hc
    rw [List.dropWhile_cons]
    rcases List.mem_cons.mp hm with rfl | ht
    · rw [hc]; simp
    · by_cases hpa : p a = true
      · rw [if_pos hpa]; exact ih ht hc
      · rw [if_neg hpa]; exact List.mem_cons_of_mem _ ht

theorem mem_pyStrip {c : Char} {s : Str} (h : c ∈ s)
    (hc : pyIsSpace c = false) : c ∈ pyStrip s := by
  unfold pyStrip
  exact List.mem_reverse.mpr
    (mem_dropWhile_of_not (List.mem_reverse.mpr (mem_dropWhile_of_not h hc)) hc)

theorem pyStrip_ne_nil {c : Char} {s : Str} (h : c ∈ s)
    (hc : pyIsSpace c = false) : pyStrip s ≠ [] :=
  List.ne_nil_of_mem (mem_pyStrip h hc)

theorem pyStrip_length_le (s : Str) : (pyStrip s).length ≤ s.length := by
  unfold pyStrip
  calc ((s.dropWhile pyIsSpace).reverse.dropWhile pyIsSpace).reverse.length
      = ((s.dropWhile pyIsSpace).reverse.dropWhile pyIsSpace).length :=
        List.length_reverse _
    _ ≤ (s.dropWhile pyIsSpace).reverse.length :=
        ((List.dropWhile_suffix _).sublist).length_le
    _ = (s.dropWhile pyIsSpace).length := List.length_reverse _
    _ ≤ s.length := ((List.dropWhile_suffix _).sublist).length_le

theorem head?_dropWhile_false {p : Char → Bool} {l : Str} {c : Char}
    (h : (l.dropWhile p).head? = some c) : p c = false := by
  have hx := List.head?_dropWhile_not p l
  rw [h] at hx
  exact hx

theorem mem_of_getLast?_eq {α : Type} {l : List α} {c : α}
    (h : l.getLast? = some c) : c ∈ l := by
  have hr : l.reverse.head? = some c := by rw [List.head?_reverse]; exact h
  cases he : l.reverse with
  | nil => rw [he] at hr; cases hr
  | cons a t =>
    rw [he] at hr
    have : c = a := by cases hr; rfl
    subst this
    exact List.mem_reverse.mp (he ▸ List.mem_cons_self c t)

theorem getLast?_of_suffix {α : Type} {u v : List α} (h : u <:+ v)
    (hu : u ≠ []) : v.getLast? = u.getLast? := by
  obtain ⟨w, rfl⟩ := h
  rw [List.getLast?_append]
  cases hl : u.getLast? with
  | none => exact absurd (List.getLast?_eq_none_iff.mp hl) hu
  | some c => rfl

theorem dropWhile_eq_self_of_head {p : Char → Bool} {l : Str}
    (h : ∀ c, l.head? = some c → p c = false) : l.dropWhile p = l := by
  cases l with
  | nil => rfl
  | cons a t =>
    rw [List.dropWhile_cons, if_neg]
    rw [h a rfl]
    simp

theorem pyStrip_eq_self_of_ends {s : Str}
    (hh : ∀ c, s.head? = some c → pyIsSpace c = false)
    (hl : ∀ c, s.getLast? = some c → pyIsSpace c = false) : pyStrip s = s := by
  unfold pyStrip
  rw [dropWhile_eq_self_of_head hh]
  rw [dropWhile_eq_self_of_head (fun c hc => hl c (by rwa [List.head?_reverse] at hc))]
  exact List.reverse_reverse s

theorem pyStrip_head?_false {s : Str} {c : Char}
    (h : (pyStrip s).head? = some c) : pyIsSpace c = false := by
  unfold pyStrip at h
  rw [List.head?_reverse] at h
  have hne : (s.dropWhile pyIsSpace).reverse.dropWhile pyIsSpace ≠ [] := by
    intro hnil
    rw [hnil] at h
    cases h
  have hsuf := List.dropWhile_suffix (l := (s.dropWhile pyIsSpace).reverse) pyIsSpace
  have h2 : (s.dropWhile pyIsSpace).reverse.getLast? = some c := by
    rw [getLast?_of_suffix hsuf hne]; exact h
  rw [List.getLast?_reverse] at h2
  exact head?_dropWhile_false h2

theorem pyStrip_getLast?_false {s : Str} {c : Char}
    (h : (pyStrip s).getLast? = some c) : pyIsSpace c = false := by
  unfold pyStrip at h
  rw [List.getLast?_reverse] at h
  exact head?_dropWhile_false h

theorem pyStrip_idem (s : Str) : pyStrip (pyStrip s) = pyStrip s :=
  pyStrip_eq_self_of_ends (fun _ h => pyStrip_head?_false h)
    (fun _ h => pyStrip_getLast?_false h)

theorem stripped_getLast_not_space {p : Str} (hp : p ≠ [])
    (hfix : pyStrip p = p) :
    ∃ c, p.getLast? = some c ∧ pyIsSpace c = false := by
  cases hc : p.getLast? with
  | none => exact absurd (List.getLast?_eq_none_iff.mp hc) hp
  | some c =>
    refine ⟨c, rfl, pyStrip_getLast?_false (s := p) ?_⟩
    rw [hfix]
    exact hc

theorem pySplitNl_ne_nil (s : Str) : pySplitNl s ≠ [] := by
  induction s with
  | nil => simp [pySplitNl]
  | cons c cs ih =>
    rw [pySplitNl]
    by_cases h : c = '\n'
    · rw [if_pos h]; simp
    · rw [if_neg h]
      cases pySplitNl cs <;> simp

/-- Total paragraph cost: each paragraph plus its separating newline. -/
def paraCost (l : List Str) : Nat := (l.map (fun p => p.length + 1)).sum

theorem paraCost_cons (p : Str) (l : List Str) :
    paraCost (p :: l) = p.length + 1 + paraCost l := by
  simp only [paraCost, List.map_cons, List.sum_cons]

theorem paraCost_splitNl (s : Str) : paraCost (pySplitNl s) = s.length + 1 := by
  induction s with
  | nil => simp [pySplitNl, paraCost]
  | cons c cs ih =>
    rw [pySplitNl]
    by_cases h : c = '\n'
    · rw [if_pos h, paraCost_cons, ih]
      simp only [List.length_cons, List.length_nil]
      omega
    · rw [if_neg h]
      cases he : pySplitNl cs with
      | nil => exact absurd he (pySplitNl_ne_nil cs)
      | cons r rs =>
        have ih2 : r.length + 1 + paraCost rs = cs.length + 1 := by
          rw [← paraCost_cons, ← he]; exact ih
        show paraCost ((c :: r) :: rs) = (c :: cs).length + 1
        rw [paraCost_cons]
        simp only [List.length_cons]
        omega

/-! ### Chunk-stripping invariant of the splitting path -/

theorem splitLoop_stripped (maxC ov : Nat) :
    ∀ (rest : List Str) (chunks : List Str) (current : Str),
      (∀ c ∈ chunks, pyStrip c = c) →
      ∀ ch ∈ splitLoop maxC ov rest chunks current, pyStrip ch = ch := by
  intro rest
  induction rest with
  | nil =>
    intro chunks current hch ch hm
    rw [splitLoop] at hm
    by_cases h : pyStrip current ≠ []
    · rw [if_pos h] at hm
      rcases List.mem_append.mp hm with hl | hr
      · exact hch ch hl
      · rcases List.mem_cons.mp hr with rfl | hc
        · exact pyStrip_idem current
        · cases hc
    · rw [if_neg h] at hm
      exact hch ch hm
  | cons para rest ih =>
    intro chunks current hch ch hm
    rw [splitLoop] at hm
    by_cases h : current ≠ [] ∧ maxC < current.length + para.length + 1
    · rw [if_pos h] at hm
      refine ih _ _ ?_ ch hm
      intro c hc
      rcases List.mem_append.mp hc with hl | hr
      · exact hch c hl
      · rcases List.mem_cons.mp hr with rfl | hx
        · exact pyStrip_idem current
        · cases hx
    · rw [if_neg h] at hm
      exact ih _ _ hch ch hm

/-! ### Claim theorems: C9, C10, C2, C1 -/

/-- C9: for every text whose length is at most `max_chars`,
`split_into_chunks` returns exactly the one-element list containing that text
unchanged (the short-circuit of `indexer.py` lines 33-34). -/
theorem C9_short_text_single_chunk (text : Str) (maxC ov : Nat)
    (h : text.length ≤ maxC) : split_into_chunks text maxC ov = [text] := by
  unfold split_into_chunks
  rw [if_pos h]

theorem C9_short_text_single_chunk_witness :
    (strOf "korte tekst").length ≤ 1500 ∧
      split_into_chunks (strOf "korte tekst") 1500 200 = [strOf "korte tekst"] :=
  ⟨by decide, C9_short_text_single_chunk (strOf "korte tekst") 1500 200 (by decide)⟩

/-- C10 counterexample: the claim "every chunk returned by
`split_into_chunks` is stripped of leading and trailing whitespace, and no
empty chunk is returned" fails on the short-circuit path: `" a "` (length 3 ≤
max_chars) is returned unchanged with its surrounding whitespace, and the
empty text yields the one-element list containing the empty chunk. -/
theorem C10_cex :
    (split_into_chunks (strOf " a ") 1500 200 = [strOf " a "] ∧
      pyStrip (strOf " a ") ≠ strOf " a ") ∧
    (split_into_chunks (strOf "") 1500 200 = [strOf ""] ∧
      strOf "" = ([] : Str)) := by decide

/-- C10 (amended): every chunk produced by the splitting path (text strictly
longer than `max_chars`) is stripped of leading and trailing whitespace;
the short-circuit path returns the text unchanged (possibly unstripped or
empty). -/
theorem C10_long_path_chunks_stripped (text : Str) (maxC ov : Nat) (ch : Str)
    (hlen : maxC < text.length) (hm : ch ∈ split_into_chunks text maxC ov) :
    pyStrip ch = ch := by
  unfold split_into_chunks at hm
  rw [if_neg (by omega)] at hm
  exact splitLoop_stripped maxC ov (pySplitNl text) [] [] (by intro c hc; cases hc) ch hm

theorem C10_long_path_chunks_stripped_witness :
    pyStrip (strOf "abcd\nefgh") = strOf "abcd\nefgh" :=
  C10_long_path_chunks_stripped (strOf "abcd\nefgh\nijkl") 10 1
    (strOf "abcd\nefgh") (by decide) (by decide)

/-- C2 counterexample: the claim "on load the lengths of the vector index and
the chunk sequence are validated to be equal; a mismatch is fatal" fails:
`_load` (qa.py lines 73-87) performs no comparison, so a 1-vector index paired
with an empty chunk list loads successfully. -/
theorem C2_cex :
    loadSucceeds (qa_load [[0]] []) = true ∧
      ([[0]] : List (List Int)).length ≠ ([] : List Chunk).length := by decide

/-- C2 (amended): `_load` performs no length validation at all — any
deserialised (index, chunk-sequence) pair, also one with mismatching lengths,
is stored unchecked and the engine proceeds to serve queries against it. -/
theorem C2_load_no_validation (idx : List (List Int)) (chs : List Chunk)
    (_hmis : idx.length ≠ chs.length) : qa_load idx chs = Except.ok ⟨idx, chs⟩ :=
  rfl

theorem C2_load_no_validation_witness :
    qa_load [[0]] [] = Except.ok ⟨[[0]], []⟩ :=
  C2_load_no_validation [[0]] [] (by decide)

/-- C1 counterexample: the claim "if the generation call raises, `ask`
returns an apology with an *empty* sources list" fails: the `except` handler
(qa.py lines 257-259) sets `used_indices = []`, after which the shared
source-selection code (lines 261-266) runs the top-1 fallback, so the source
of the top-ranked chunk is returned, not an empty list. -/
theorem C1_cex :
    (ask [⟨strOf "tekst", strOf "https://example.org/a", strOf "Titel",
        strOf "Sectie", strOf "Kop"⟩]
      (Except.error (strOf "boom"))).sources =
        [⟨strOf "Titel", strOf "https://example.org/a", strOf "Sectie"⟩] ∧
    (ask [⟨strOf "tekst", strOf "https://example.org/a", strOf "Titel",
        strOf "Sectie", strOf "Kop"⟩]
      (Except.error (strOf "boom"))).sources ≠ [] := by decide

/-- C1 (amended): if the generation call raises, `ask` returns normally with
a non-empty apology string in the answer field and the same top-1 fallback
sources as when no passages are cited (`_get_sources_by_indices(chunks, [0])`
— empty only when the ranked list is empty or its top chunk has an empty
URL), and the ranked chunks are passed through. -/
theorem C1_ask_error_apology_top1 (chunks : List Chunk) (e : Str) :
    (ask chunks (Except.error e)).answer = apology e ∧
    apology e ≠ [] ∧
    (ask chunks (Except.error e)).sources = get_sources_by_indices chunks [0] ∧
    (ask chunks (Except.error e)).chunks = chunks := by
  refine ⟨rfl, ?_, rfl, rfl⟩
  exact List.append_ne_nil_of_left_ne_nil (by decide) e

/-! ### Claim C7: source deduplication is first-occurrence-by-URL -/

/-- Modelled from the spec's dedup rule (section 4.6): iterate candidate
chunks in order, keep the first occurrence of each non-empty source URL,
preserve that first-seen order, never use an empty URL as a key. -/
def sourceDedupSpec : List Str → List Chunk → List Source
  | _, [] => []
  | seen, c :: rest =>
    if c.bron_url ≠ [] ∧ c.bron_url ∉ seen then
      mkSource c :: sourceDedupSpec (c.bron_url :: seen) rest
    else sourceDedupSpec seen rest

/-- The in-range candidate chunks selected by an index list, in index order
(the chunks the loop of `_get_sources_by_indices` does not `continue` past). -/
def validCands (chunks : List Chunk) (indices : List Int) : List Chunk :=
  indices.filterMap (fun idx =>
    if h : 0 ≤ idx ∧ idx.toNat < chunks.length then
      some (chunks.get ⟨idx.toNat, h.2⟩)
    else none)

theorem gsAux_eq_spec (chunks : List Chunk) :
    ∀ (indices : List Int) (seen₁ seen₂ : List Str) (acc : List Source),
      (∀ u, u ∈ seen₁ ↔ u ∈ seen₂) →
      gsAux chunks indices seen₁ acc =
        acc ++ sourceDedupSpec seen₂ (validCands chunks indices) := by
  intro indices
  induction indices with
  | nil => intro seen₁ seen₂ acc _; simp [gsAux, validCands, sourceDedupSpec]
  | cons idx rest ih =>
    intro seen₁ seen₂ acc hiff
    rw [gsAux]
    by_cases h : 0 ≤ idx ∧ idx.toNat < chunks.length
    · rw [dif_pos h]
      have hv : validCands chunks (idx :: rest) =
          chunks.get ⟨idx.toNat, h.2⟩ :: validCands chunks rest := by
        simp only [validCands, List.filterMap_cons, dif_pos h]
      rw [hv, sourceDedupSpec]
      set chunk := chunks.get ⟨idx.toNat, h.2⟩ with hchunk
      by_cases hc : chunk.bron_url ≠ [] ∧ chunk.bron_url ∉ seen₁
      · rw [if_pos hc, if_pos ⟨hc.1, fun hm => hc.2 ((hiff _).mpr hm)⟩]
        rw [ih (seen₁ ++ [chunk.bron_url]) (chunk.bron_url :: seen₂) _
          (by intro u; simp [List.mem_append, hiff u]; tauto)]
        simp
      · rw [if_neg hc, if_neg (fun hx => hc ⟨hx.1, fun hm => hx.2 ((hiff _).mp hm)⟩)]
        exact ih seen₁ seen₂ acc hiff
    · rw [dif_neg h]
      have hv : validCands chunks (idx :: rest) = validCands chunks rest := by
        simp only [validCands, List.filterMap_cons, dif_neg h]
      rw [hv]
      exact ih seen₁ seen₂ acc hiff

/-- C7: `_get_sources_by_indices` iterates the in-range candidate chunks in
order, keeps only the first occurrence of each non-empty source URL,
preserves that first-seen order in the output, and never uses an empty URL as
a deduplication key — it coincides with the spec's dedup rule on the valid
candidates; in particular, two chunks sharing a URL collapse to one entry at
the earlier chunk's position. -/
theorem C7_source_dedup_first_occurrence (chunks : List Chunk)
    (indices : List Int) :
    get_sources_by_indices chunks indices =
      sourceDedupSpec [] (validCands chunks indices) := by
  unfold get_sources_by_indices
  rw [gsAux_eq_spec chunks indices [] [] [] (fun u => Iff.rfl)]
  rfl

/-! ### Claim C8: missing/unparsable citation marker degrades to top-1 -/

theorem gs_top1 (chunks : List Chunk) :
    get_sources_by_indices chunks [0] =
      match chunks with
      | [] => []
      | c :: _ => if c.bron_url ≠ [] then [mkSource c] else [] := by
  cases chunks with
  | nil => rfl
  | cons c rest =>
    show gsAux (c :: rest) [0] [] [] = _
    rw [gsAux]
    rw [dif_pos (by constructor <;> simp)]
    simp only [Int.toNat_zero, List.get]
    by_cases hc : c.bron_url ≠ []
    · rw [if_pos ⟨hc, by simp⟩, if_pos hc]
      rfl
    · rw [if_neg (fun hx => hc hx.1), if_neg hc]
      rfl

/-- C8: for every generated answer in which no citation marker is found or no
indices parse (`_parse_used_passages` returns an empty index list), `ask`
falls back to treating only the single top-ranked chunk as the source — the
same normal return path as any other answer, not an error. -/
theorem C8_parse_fallback_top1 (chunks : List Chunk) (raw : Str)
    (h : (parse_used_passages raw).2 = []) :
    (ask chunks (Except.ok raw)).answer = (parse_used_passages raw).1 ∧
    (ask chunks (Except.ok raw)).sources = get_sources_by_indices chunks [0] ∧
    get_sources_by_indices chunks [0] =
      (match chunks with
       | [] => []
       | c :: _ => if c.bron_url ≠ [] then [mkSource c] else []) := by
  refine ⟨rfl, ?_, gs_top1 chunks⟩
  show (if (parse_used_passages raw).2 ≠ [] then _ else _) = _
  rw [if_neg (by rw [h]; simp)]

theorem C8_parse_fallback_top1_witness :
    (parse_used_passages (strOf "Hier staat geen marker.")).2 = [] ∧
    (ask [⟨strOf "t", strOf "https://example.org/a", strOf "Titel",
        strOf "Sectie", strOf "Kop"⟩]
      (Except.ok (strOf "Hier staat geen marker."))).sources =
      get_sources_by_indices
        [⟨strOf "t", strOf "https://example.org/a", strOf "Titel",
          strOf "Sectie", strOf "Kop"⟩] [0] :=
  ⟨by decide,
    (C8_parse_fallback_top1 _ (strOf "Hier staat geen marker.") (by decide)).2.1⟩

/-! ### Claim C6: citation extraction and mapping -/

/-- C6: citation extraction locates the marker line, parses its integers,
converts the 1-based passage numbers to 0-based chunk positions, strips the
marker line from the displayed answer, and maps the surviving indices to
source records: for an answer ending in the marker line
`GEBRUIKTE PASSAGES: [2, 4]` over any 5-chunk ranked context (with the two
cited chunks carrying distinct non-empty URLs), the parsed pair is
`("Antwoord.", [1, 3])` and the sources are those of ranked positions 1 and
3, in that order. -/
theorem C6_citation_mapping (c0 c1 c2 c3 c4 : Chunk)
    (h1 : c1.bron_url ≠ []) (h3 : c3.bron_url ≠ [])
    (hne : c1.bron_url ≠ c3.bron_url) :
    parse_used_passages (strOf "Antwoord.\nGEBRUIKTE PASSAGES: [2, 4]") =
      (strOf "Antwoord.", [1, 3]) ∧
    (ask [c0, c1, c2, c3, c4]
        (Except.ok (strOf "Antwoord.\nGEBRUIKTE PASSAGES: [2, 4]"))).answer =
      strOf "Antwoord." ∧
    (ask [c0, c1, c2, c3, c4]
        (Except.ok (strOf "Antwoord.\nGEBRUIKTE PASSAGES: [2, 4]"))).sources =
      [mkSource c1, mkSource c3] := by
  have hp : parse_used_passages (strOf "Antwoord.\nGEBRUIKTE PASSAGES: [2, 4]") =
      (strOf "Antwoord.", [1, 3]) := by decide
  refine ⟨hp, ?_, ?_⟩
  · show (parse_used_passages (strOf "Antwoord.\nGEBRUIKTE PASSAGES: [2, 4]")).1 = _
    rw [hp]
  · show (if (parse_used_passages
        (strOf "Antwoord.\nGEBRUIKTE PASSAGES: [2, 4]")).2 ≠ [] then
          get_sources_by_indices [c0, c1, c2, c3, c4]
            (parse_used_passages
              (strOf "Antwoord.\nGEBRUIKTE PASSAGES: [2, 4]")).2
        else get_sources_by_indices [c0, c1, c2, c3, c4] [0]) =
      [mkSource c1, mkSource c3]
    rw [hp]
    rw [if_pos (by simp)]
    show gsAux [c0, c1, c2, c3, c4] [1, 3] [] [] = [mkSource c1, mkSource c3]
    rw [gsAux]
    rw [dif_pos (by constructor <;> simp)]
    simp only [List.get]
    rw [if_pos ⟨h1, by simp⟩]
    rw [gsAux]
    rw [dif_pos (by constructor <;> simp)]
    simp only [List.get]
    rw [if_pos ⟨h3, by simp [Ne.symm hne]⟩]
    rfl

theorem C6_citation_mapping_witness :
    (ask [⟨strOf "t0", strOf "https://example.org/0", strOf "T0", strOf "S0", []⟩,
          ⟨strOf "t1", strOf "https://example.org/1", strOf "T1", strOf "S1", []⟩,
          ⟨strOf "t2", strOf "https://example.org/2", strOf "T2", strOf "S2", []⟩,
          ⟨strOf "t3", strOf "https://example.org/3", strOf "T3", strOf "S3", []⟩,
          ⟨strOf "t4", strOf "https://example.org/4", strOf "T4", strOf "S4", []⟩]
        (Except.ok (strOf "Antwoord.\nGEBRUIKTE PASSAGES: [2, 4]"))).sources =
      [⟨strOf "T1", strOf "https://example.org/1", strOf "S1"⟩,
       ⟨strOf "T3", strOf "https://example.org/3", strOf "S3"⟩] :=
  (C6_citation_mapping _ _ _ _ _ (by decide) (by decide) (by decide)).2.2

/-! ### Claim C5: context assembly under the budget -/

/-- Total character count of a list of parts. -/
def sumLen (l : List Str) : Nat := (l.map List.length).sum

/-- The labeled full units for a run of chunk texts, starting at label `i`. -/
def fullParts : Nat → List Str → List Str
  | _, [] => []
  | i, t :: rest => partFor i t :: fullParts (i + 1) rest

theorem pyJoinNl_length (parts : List Str) :
    (pyJoin ['\n'] parts).length ≤ sumLen parts + (parts.length - 1) := by
  induction parts with
  | nil => simp [pyJoin, sumLen]
  | cons x xs ih =>
    cases xs with
    | nil => simp [pyJoin, sumLen]
    | cons y t =>
      have hj : pyJoin ['\n'] (x :: y :: t) = x ++ ['\n'] ++ pyJoin ['\n'] (y :: t) := rfl
      have hs : sumLen (x :: y :: t) = x.length + sumLen (y :: t) := by simp [sumLen]
      rw [hj]
      simp only [List.length_append, List.length_cons, List.length_nil] at *
      omega

theorem ctxLoop_sumLen (maxC : Nat) :
    ∀ (ts : List Str) (i total : Nat), total ≤ maxC →
      sumLen (ctxLoop maxC i total ts) + total ≤ maxC + 3 := by
  intro ts
  induction ts with
  | nil => intro i total h; simp [ctxLoop, sumLen]; omega
  | cons t rest ih =>
    intro i total h
    rw [ctxLoop]
    by_cases h1 : maxC < total + (partFor i t).length
    · rw [if_pos h1]
      by_cases h2 : 100 < maxC - total
      · rw [if_pos h2]
        have htake : ((partFor i t).take (maxC - total)).length ≤ maxC - total := by
          rw [List.length_take]; omega
        simp only [sumLen, List.map_cons, List.map_nil, List.sum_cons,
          List.sum_nil, List.length_append]
        have : (strOf "...").length = 3 := by decide
        omega
      · rw [if_neg h2]; simp [sumLen]; omega
    · rw [if_neg h1]
      have h3 : total + (partFor i t).length ≤ maxC := by omega
      have := ih (i + 1) (total + (partFor i t).length) h3
      simp only [sumLen, List.map_cons, List.sum_cons] at *
      omega

theorem ctxLoop_count (maxC : Nat) :
    ∀ (ts : List Str) (i total : Nat),
      (ctxLoop maxC i total ts).length ≤ ts.length := by
  intro ts
  induction ts with
  | nil => intro i total; simp [ctxLoop]
  | cons t rest ih =>
    intro i total
    rw [ctxLoop]
    by_cases h1 : maxC < total + (partFor i t).length
    · rw [if_pos h1]
      by_cases h2 : 100 < maxC - total
      · rw [if_pos h2]; simp
      · rw [if_neg h2]; simp
    · rw [if_neg h1]
      simp only [List.length_cons]
      exact Nat.succ_le_succ (ih (i + 1) _)

theorem ctxLoop_structure (maxC : Nat) :
    ∀ (ts : List Str) (i total : Nat),
      ∃ m tail, m ≤ ts.length ∧ (tail = [] ∨ ∃ u, tail = [u]) ∧
        ctxLoop maxC i total ts = fullParts i (ts.take m) ++ tail := by
  intro ts
  induction ts with
  | nil =>
    intro i total
    exact ⟨0, [], Nat.le_refl 0, Or.inl rfl, by simp [ctxLoop, fullParts]⟩
  | cons t rest ih =>
    intro i total
    rw [ctxLoop]
    by_cases h1 : maxC < total + (partFor i t).length
    · rw [if_pos h1]
      by_cases h2 : 100 < maxC - total
      · rw [if_pos h2]
        exact ⟨0, [(partFor i t).take (maxC - total) ++ strOf "..."],
          Nat.zero_le _, Or.inr ⟨_, rfl⟩, by simp [fullParts]⟩
      · rw [if_neg h2]
        exact ⟨0, [], Nat.zero_le _, Or.inl rfl, by simp [fullParts]⟩
    · rw [if_neg h1]
      obtain ⟨m, tail, hm, htail, heq⟩ := ih (i + 1) (total + (partFor i t).length)
      refine ⟨m + 1, tail, Nat.succ_le_succ hm, htail, ?_⟩
      rw [heq]
      simp [fullParts]

/-- C5 counterexample: the claim "the context block's total length never
exceeds `max_chars` by more than the length of one label prefix" fails: the
newline separators inserted by `"\n".join` are not counted against the
budget, so six empty chunks under a budget of 30 produce a block of 35
characters while every label prefix has length 4. -/
theorem C5_cex :
    (buildContextGen 30 [[], [], [], [], [], []]).length = 35 ∧
    (∀ i ∈ [1, 2, 3, 4, 5, 6], (labelFor i).length = 4) ∧
    30 + 4 < 35 := by decide

/-- C5 (amended): the assembler accumulates labeled units in rank order and
appends at most one extra (ellipsis-truncated) unit — the parts list is the
full units of a prefix of the ranked chunks followed by at most one more
element, appended only when the remaining budget exceeds the minimum useful
size of 100 — and the total length never exceeds
`max_chars + 3 + (number of chunks - 1)`: the overrun is the 3-character
ellipsis plus the join separators, which are not counted against the budget
and can therefore exceed one label prefix. -/
theorem C5_build_context_budget (maxC : Nat) (texts : List Str) :
    (buildContextGen maxC texts).length ≤ maxC + 3 + (texts.length - 1) ∧
    ∃ m tail, m ≤ texts.length ∧ (tail = [] ∨ ∃ u, tail = [u]) ∧
      ctxLoop maxC 1 0 texts = fullParts 1 (texts.take m) ++ tail := by
  refine ⟨?_, ctxLoop_structure maxC texts 1 0⟩
  have hsum := ctxLoop_sumLen maxC texts 1 0 (Nat.zero_le maxC)
  have hcount := ctxLoop_count maxC texts 1 0
  have hjoin := pyJoinNl_length (ctxLoop maxC 1 0 texts)
  unfold buildContextGen
  omega

/-! ### Claim C4: hybrid search ranking and tie-breaking -/

instance decIsSetList (c u : List Nat) : Decidable (IsSetList c u) :=
  inferInstanceAs (Decidable (c.Nodup ∧ (∀ x ∈ c, x ∈ u) ∧ ∀ x ∈ u, x ∈ c))

theorem filter_class_orderedInsert (score : Nat → Int) (v : Int) (a : Nat)
    (s : List Nat) :
    (List.orderedInsert (fun x y => score y ≤ score x) a s).filter
        (fun x => score x == v) =
      if score a == v then a :: s.filter (fun x => score x == v)
      else s.filter (fun x => score x == v) := by
  rw [List.orderedInsert_eq_take_drop]
  rw [List.filter_append]
  rw [List.filter_cons]
  have hsplit : s.filter (fun x => score x == v) =
      (s.takeWhile fun b => decide ¬score b ≤ score a).filter (fun x => score x == v) ++
      (s.dropWhile fun b => decide ¬score b ≤ score a).filter (fun x => score x == v) := by
    rw [← List.filter_append, List.takeWhile_append_dropWhile]
  by_cases hqa : (score a == v) = true
  · have htw : (s.takeWhile fun b => decide ¬score b ≤ score a).filter
        (fun x => score x == v) = [] := by
      rw [List.filter_eq_nil_iff]
      intro b hb hbv
      have hx := List.mem_takeWhile_imp hb
      have h1 : ¬ score b ≤ score a := of_decide_eq_true (by simpa using hx)
      have h2 : score b = v := by simpa using hbv
      have h3 : score a = v := by simpa using hqa
      exact h1 (le_of_eq (h2.trans h3.symm))
    rw [if_pos hqa, if_pos hqa, htw, hsplit, htw]
    simp
  · rw [if_neg hqa, if_neg hqa]
    exact hsplit.symm

theorem filter_class_insertionSort (score : Nat → Int) (v : Int) :
    ∀ l : List Nat,
      (List.insertionSort (fun x y => score y ≤ score x) l).filter
          (fun x => score x == v) =
        l.filter (fun x => score x == v) := by
  intro l
  induction l with
  | nil => rfl
  | cons a l ih =>
    show (List.orderedInsert _ a
        (List.insertionSort (fun x y => score y ≤ score x) l)).filter _ = _
    rw [filter_class_orderedInsert, ih, List.filter_cons]

/-- C4 counterexample: the claim that ties are broken "stably by original
candidate-set insertion order, semantic candidates inserted before lexical
ones" fails.  `search` sorts `list(candidate_indices)` where
`candidate_indices` is a Python `set`, which does not preserve insertion
order: with semantic ordinals `[3, 1]` inserted before lexical ordinal `[0]`
and all cross-encoder scores tied, the set enumeration `[0, 1, 3]` — a valid
(indeed, CPython's actual) enumeration of the hash set `{3, 1, 0}` — makes
the stable sort return `[0, 1, 3]`, while insertion order would demand
`[3, 1, 0]`. -/
theorem C4_cex :
    IsSetList [0, 1, 3] ([3, 1] ++ [0]) ∧
    search (fun _ => 0) 3 [0, 1, 3] = [0, 1, 3] ∧
    dedupFirst ([3, 1] ++ [0]) = [3, 1, 0] ∧
    search (fun _ => 0) 3 (dedupFirst ([3, 1] ++ [0])) = [3, 1, 0] ∧
    ([0, 1, 3] : List Nat) ≠ [3, 1, 0] := by decide

/-- C4 (amended): for every valid enumeration `candOrder` of the
deduplicated union of semantic and lexical candidate ordinals, `search`
returns the top-K of that union sorted by cross-encoder score in descending
order — duplicate-free members of the union, of length `min k |candOrder|`,
every returned candidate scoring at least every omitted one — with ties
broken stably by the set-enumeration order (each equal-score class of the
output is a sublist of `candOrder`), which is implementation-defined and not
the insertion order. -/
theorem C4_search_rank_amended (semIdx lexIdx : List Nat) (score : Nat → Int)
    (k : Nat) (candOrder : List Nat)
    (hset : IsSetList candOrder (semIdx ++ lexIdx)) :
    (search score k candOrder).Sorted (fun a b => score b ≤ score a) ∧
    (search score k candOrder).Nodup ∧
    (∀ x ∈ search score k candOrder, x ∈ semIdx ++ lexIdx) ∧
    (search score k candOrder).length = min k candOrder.length ∧
    (∀ x ∈ search score k candOrder, ∀ y ∈ candOrder,
        y ∉ search score k candOrder → score y ≤ score x) ∧
    (∀ v : Int,
      ((search score k candOrder).filter (fun x => score x == v)).Sublist
        (candOrder.filter (fun x => score x == v))) := by
  haveI : IsTotal Nat (fun x y => score y ≤ score x) :=
    ⟨fun a b => le_total (score b) (score a)⟩
  haveI : IsTrans Nat (fun x y => score y ≤ score x) :=
    ⟨fun _ _ _ hab hbc => le_trans hbc hab⟩
  have hperm := List.perm_insertionSort (fun x y : Nat => score y ≤ score x) candOrder
  have hsorted := List.sorted_insertionSort (fun x y : Nat => score y ≤ score x) candOrder
  have htake := List.take_sublist k
    (List.insertionSort (fun x y : Nat => score y ≤ score x) candOrder)
  refine ⟨?_, ?_, ?_, ?_, ?_, ?_⟩
  · exact List.Pairwise.sublist htake hsorted
  · exact List.Nodup.sublist htake (hperm.nodup_iff.mpr hset.1)
  · intro x hx
    exact hset.2.1 x (hperm.mem_iff.mp (htake.subset hx))
  · show (List.take k _).length = _
    rw [List.length_take, hperm.length_eq]
  · intro x hx y hy hyn
    have hy2 : y ∈ List.insertionSort (fun x y : Nat => score y ≤ score x) candOrder :=
      hperm.mem_iff.mpr hy
    rw [← List.take_append_drop k
      (List.insertionSort (fun x y : Nat => score y ≤ score x) candOrder)] at hy2
    rcases List.mem_append.mp hy2 with hyt | hyd
    · exact absurd hyt hyn
    · have hp := hsorted
      rw [← List.take_append_drop k
        (List.insertionSort (fun x y : Nat => score y ≤ score x) candOrder)] at hp
      exact (List.pairwise_append.mp hp).2.2 x hx y hyd
  · intro v
    have h2 := htake.filter (fun x => score x == v)
    rw [filter_class_insertionSort score v candOrder] at h2
    exact h2

theorem C4_search_rank_amended_witness :
    ((search (fun _ => 0) 3 [0, 1, 3]).Sorted
        (fun a b => (fun _ : Nat => (0 : Int)) b ≤ (fun _ : Nat => (0 : Int)) a) ∧
      (search (fun _ => 0) 3 [0, 1, 3]).Nodup ∧
      (∀ x ∈ search (fun _ => 0) 3 [0, 1, 3], x ∈ [3, 1] ++ [0]) ∧
      (search (fun _ => 0) 3 [0, 1, 3]).length = min 3 ([0, 1, 3] : List Nat).length ∧
      (∀ x ∈ search (fun _ => 0) 3 [0, 1, 3], ∀ y ∈ [0, 1, 3],
          y ∉ search (fun _ => 0) 3 [0, 1, 3] →
            (fun _ : Nat => (0 : Int)) y ≤ (fun _ : Nat => (0 : Int)) x) ∧
      (∀ v : Int,
        ((search (fun _ => 0) 3 [0, 1, 3]).filter
            (fun x => (fun _ : Nat => (0 : Int)) x == v)).Sublist
          (([0, 1, 3] : List Nat).filter
            (fun x => (fun _ : Nat => (0 : Int)) x == v)))) :=
  C4_search_rank_amended [3, 1] [0] (fun _ => 0) 3 [0, 1, 3] (by decide)

/-! ### Claim C3: the chunk round-trip invariant -/

/-- Two strings share a character. -/
def sharesChar (s t : Str) : Prop := ∃ c, c ∈ s ∧ c ∈ t

instance decSharesChar (s t : Str) : Decidable (sharesChar s t) :=
  inferInstanceAs (Decidable (∃ c, c ∈ s ∧ c ∈ t))

/-- Sharing a non-empty contiguous substring is the same as sharing a
character (a shared character is itself a one-character substring, and any
non-empty shared substring contains a character present in both). -/
theorem shares_infix_iff (s t : Str) :
    (∃ u : Str, u ≠ [] ∧ u <:+: s ∧ u <:+: t) ↔ sharesChar s t := by
  constructor
  · rintro ⟨u, hu, hs, ht⟩
    cases u with
    | nil => exact absurd rfl hu
    | cons c cs =>
      exact ⟨c, hs.subset (List.mem_cons_self c cs),
        ht.subset (List.mem_cons_self c cs)⟩
  · rintro ⟨c, hcs, hct⟩
    refine ⟨[c], by simp, ?_, ?_⟩
    · obtain ⟨l1, l2, rfl⟩ := List.append_of_mem hcs
      exact ⟨l1, l2, by simp⟩
    · obtain ⟨l1, l2, rfl⟩ := List.append_of_mem hct
      exact ⟨l1, l2, by simp⟩

theorem getLast?_append_right {α : Type} {l₁ l₂ : List α} (h : l₂ ≠ []) :
    (l₁ ++ l₂).getLast? = l₂.getLast? := by
  rw [List.getLast?_append]
  cases he : l₂.getLast? with
  | none => exact absurd (List.getLast?_eq_none_iff.mp he) h
  | some c => rfl

/-- C3 counterexample: the round-trip invariant fails on texts longer than
`max_chars`.  A single 8-character paragraph with `max_chars = 5`,
`overlap = 2` yields one oversized chunk (neither ≥ 2 chunks nor the
`max_chars + overlap` bound holds), and `"ab  \nYYYY"` splits into
`["ab", "YYYY"]`, two consecutive chunks sharing no non-empty substring: the
overlap seed consists of the two trailing spaces, which the stripping of the
second chunk removes. -/
theorem C3_cex :
    (5 < (strOf "aaaaaaaa").length ∧
      ¬ 2 ≤ (split_into_chunks (strOf "aaaaaaaa") 5 2).length ∧
      ¬ ∀ ch ∈ split_into_chunks (strOf "aaaaaaaa") 5 2, ch.length ≤ 5 + 2) ∧
    (5 < (strOf "ab  \nYYYY").length ∧
      ¬ List.Chain' (fun s t => ∃ u : Str, u ≠ [] ∧ u <:+: s ∧ u <:+: t)
        (split_into_chunks (strOf "ab  \nYYYY") 5 2)) := by
  refine ⟨⟨by decide, by decide, by decide⟩, by decide, ?_⟩
  intro hchain
  have h1 : split_into_chunks (strOf "ab  \nYYYY") 5 2 =
      [strOf "ab", strOf "YYYY"] := by decide
  rw [h1] at hchain
  have h3 := (List.chain'_cons.mp hchain).1
  rw [shares_infix_iff] at h3
  revert h3
  decide

/-- Appending the stripped buffer as a new chunk preserves the length bound
and the sharing chain, given the cross link between the buffer and the last
chunk. -/
theorem chunks_extend (maxC : Nat) (chunks : List Str) (current : Str)
    (hlens : ∀ ch ∈ chunks, ch.length ≤ maxC)
    (hchain : List.Chain' sharesChar chunks)
    (hlink : chunks = [] ∨ ∃ lc c, chunks.getLast? = some lc ∧
      pyIsSpace c = false ∧ c ∈ current ∧ c ∈ lc)
    (hcur : current.length ≤ maxC) :
    (∀ ch ∈ chunks ++ [pyStrip current], ch.length ≤ maxC) ∧
    List.Chain' sharesChar (chunks ++ [pyStrip current]) := by
  constructor
  · intro ch hm
    rcases List.mem_append.mp hm with hl | hr
    · exact hlens ch hl
    · rcases List.mem_cons.mp hr with rfl | hc
      · exact le_trans (pyStrip_length_le current) hcur
      · cases hc
  · rw [List.chain'_append]
    refine ⟨hchain, List.chain'_singleton _, ?_⟩
    intro x hx y hy
    rcases hlink with rfl | ⟨lc, c, hlc, hcs, hc1, hc2⟩
    · cases hx
    · have hxlc : x = lc := by rw [hx] at hlc; cases hlc; rfl
      have hy2 : y = pyStrip current := by cases hy; rfl
      subst hxlc hy2
      exact ⟨c, hc2, mem_pyStrip hc1 hcs⟩

/-- Master invariant of the paragraph loop: for well-formed remaining
paragraphs (non-empty, pre-stripped, small enough to fit after an overlap
seed) and a well-formed buffer, the loop emits chunks within the budget that
chain by shared characters, emits at least one chunk beyond those
accumulated, and emits at least two more when the remaining material
overflows the budget. -/
theorem splitLoop_master (maxC ov : Nat) (hov : 1 ≤ ov) :
    ∀ (rest : List Str) (chunks : List Str) (current : Str),
      (∀ p ∈ rest, p ≠ [] ∧ pyStrip p = p ∧ p.length + ov + 1 ≤ maxC) →
      current ≠ [] →
      current.length ≤ maxC →
      (∃ d, current.getLast? = some d ∧ pyIsSpace d = false) →
      (∀ ch ∈ chunks, ch.length ≤ maxC) →
      List.Chain' sharesChar chunks →
      (chunks = [] ∨ ∃ lc c, chunks.getLast? = some lc ∧ pyIsSpace c = false ∧
        c ∈ current ∧ c ∈ lc) →
      (∀ ch ∈ splitLoop maxC ov rest chunks current, ch.length ≤ maxC) ∧
      List.Chain' sharesChar (splitLoop maxC ov rest chunks current) ∧
      chunks.length + 1 ≤ (splitLoop maxC ov rest chunks current).length ∧
      (maxC < current.length + paraCost rest →
        chunks.length + 2 ≤ (splitLoop maxC ov rest chunks current).length) := by
  intro rest
  induction rest with
  | nil =>
    intro chunks current _ hcne hcur hend hlens hchain hlink
    obtain ⟨d, hdl, hds⟩ := hend
    have hdm : d ∈ current := mem_of_getLast?_eq hdl
    have hstrip : pyStrip current ≠ [] := pyStrip_ne_nil hdm hds
    rw [splitLoop, if_pos hstrip]
    obtain ⟨hl, hc⟩ := chunks_extend maxC chunks current hlens hchain hlink hcur
    refine ⟨hl, hc, by simp, ?_⟩
    intro hover
    simp only [paraCost, List.map_nil, List.sum_nil] at hover
    omega
  | cons para rest ih =>
    intro chunks current hps hcne hcur hend hlens hchain hlink
    obtain ⟨hpne, hpfix, hplen⟩ := hps para (List.mem_cons_self para rest)
    have hps' : ∀ p ∈ rest, p ≠ [] ∧ pyStrip p = p ∧ p.length + ov + 1 ≤ maxC :=
      fun p hp => hps p (List.mem_cons_of_mem para hp)
    obtain ⟨dp, hdpl, hdps⟩ := stripped_getLast_not_space hpne hpfix
    rw [splitLoop]
    by_cases hsplit : current ≠ [] ∧ maxC < current.length + para.length + 1
    · rw [if_pos hsplit]
      obtain ⟨d, hdl, hds⟩ := hend
      have hdm : d ∈ current := mem_of_getLast?_eq hdl
      -- the overlap seed
      have hover : d ∈ (if ov < current.length then pyNegSlice current ov
          else current) ∧
          (if ov < current.length then pyNegSlice current ov
            else current).length ≤ ov := by
        by_cases hlt : ov < current.length
        · rw [if_pos hlt]
          have hnz : ¬ ov = 0 := by omega
          have hslice : pyNegSlice current ov =
              current.drop (current.length - ov) := by
            rw [pyNegSlice, if_neg hnz]
          have hlen2 : (current.drop (current.length - ov)).length = ov := by
            rw [List.length_drop]; omega
          have hne2 : current.drop (current.length - ov) ≠ [] := by
            intro hnil
            rw [hnil] at hlen2
            simp at hlen2
            omega
          have hsuf := List.drop_suffix (current.length - ov) current
          have := getLast?_of_suffix hsuf hne2
          rw [hslice, hlen2]
          refine ⟨mem_of_getLast?_eq (by rw [← this]; exact hdl), le_refl ov⟩
        · rw [if_neg hlt]
          exact ⟨hdm, by omega⟩
      obtain ⟨hdseed, hseedlen⟩ := hover
      set overlapText := (if ov < current.length then pyNegSlice current ov
        else current) with hoverdef
      have hseedne : overlapText ++ '\n' :: para ≠ [] := by simp
      have hseedlen2 : (overlapText ++ '\n' :: para).length ≤ maxC := by
        rw [List.length_append, List.length_cons]
        omega
      have hseedlast : ∃ d2, (overlapText ++ '\n' :: para).getLast? = some d2 ∧
          pyIsSpace d2 = false := by
        refine ⟨dp, ?_, hdps⟩
        rw [getLast?_append_right (by simp)]
        show ('\n' :: para).getLast? = some dp
        have : '\n' :: para = ['\n'] ++ para := rfl
        rw [this, getLast?_append_right hpne]
        exact hdpl
      obtain ⟨hl2, hc2⟩ := chunks_extend maxC chunks current hlens hchain hlink hcur
      have hlink2 : chunks ++ [pyStrip current] = [] ∨
          ∃ lc c, (chunks ++ [pyStrip current]).getLast? = some lc ∧
            pyIsSpace c = false ∧ c ∈ overlapText ++ '\n' :: para ∧ c ∈ lc := by
        refine Or.inr ⟨pyStrip current, d, List.getLast?_concat chunks, hds, ?_, ?_⟩
        · exact List.mem_append.mpr (Or.inl hdseed)
        · exact mem_pyStrip hdm hds
      obtain ⟨ha, hb, hcnt, _⟩ := ih (chunks ++ [pyStrip current])
        (overlapText ++ '\n' :: para) hps' hseedne hseedlen2 hseedlast hl2 hc2 hlink2
      have hcnt2 : chunks.length + 2 ≤
          (splitLoop maxC ov rest (chunks ++ [pyStrip current])
            (overlapText ++ '\n' :: para)).length := by
        rw [List.length_append, List.length_cons, List.length_nil] at hcnt
        omega
      exact ⟨ha, hb, by omega, fun _ => hcnt2⟩
    · rw [if_neg hsplit]
      have hfit : current.length + para.length + 1 ≤ maxC := by
        rcases not_and_or.mp hsplit with h | h
        · exact absurd hcne (by simpa using h)
        · omega
      have hcur' : (if current = [] then para
          else current ++ '\n' :: para) = current ++ '\n' :: para := by
        rw [if_neg hcne]
      rw [hcur']
      have hlen2 : (current ++ '\n' :: para).length ≤ maxC := by
        rw [List.length_append, List.length_cons]
        omega
      have hlast2 : ∃ d2, (current ++ '\n' :: para).getLast? = some d2 ∧
          pyIsSpace d2 = false := by
        refine ⟨dp, ?_, hdps⟩
        rw [getLast?_append_right (by simp)]
        show ('\n' :: para).getLast? = some dp
        have : '\n' :: para = ['\n'] ++ para := rfl
        rw [this, getLast?_append_right hpne]
        exact hdpl
      have hlink2 : chunks = [] ∨
          ∃ lc c, chunks.getLast? = some lc ∧ pyIsSpace c = false ∧
            c ∈ current ++ '\n' :: para ∧ c ∈ lc := by
        rcases hlink with h | ⟨lc, c, h1, h2, h3, h4⟩
        · exact Or.inl h
        · exact Or.inr ⟨lc, c, h1, h2, List.mem_append.mpr (Or.inl h3), h4⟩
      obtain ⟨ha, hb, hcnt, hprog⟩ := ih chunks (current ++ '\n' :: para)
        hps' (by simp) hlen2 hlast2 hlens hchain hlink2
      refine ⟨ha, hb, hcnt, ?_⟩
      intro hoverflow
      apply hprog
      rw [paraCost_cons] at hoverflow
      rw [List.length_append, List.length_cons]
      omega

/-- C3 (amended): the round-trip invariant holds for texts longer than
`max_chars` whose newline-delimited paragraphs are paragraph-splittable:
each paragraph non-empty, free of leading/trailing whitespace, and small
enough to fit in the budget together with an overlap seed
(`len(p) + overlap + 1 ≤ max_chars`), with `overlap ≥ 1`.  Then `split`
returns at least 2 chunks, every chunk has length at most
`max_chars + overlap` (in fact at most `max_chars`), and consecutive chunks
share a non-empty overlapping substring.  Without the paragraph proviso the
original claim fails (oversized paragraphs are emitted whole — the spec's own
paragraph-atomicity edge case — and whitespace overlap seeds are stripped
away). -/
theorem C3_split_amended (text : Str) (maxC ov : Nat) (hov : 1 ≤ ov)
    (hparas : ∀ p ∈ pySplitNl text,
      p ≠ [] ∧ pyStrip p = p ∧ p.length + ov + 1 ≤ maxC)
    (hlen : maxC < text.length) :
    2 ≤ (split_into_chunks text maxC ov).length ∧
    (∀ ch ∈ split_into_chunks text maxC ov, ch.length ≤ maxC + ov) ∧
    List.Chain' (fun s t => ∃ u : Str, u ≠ [] ∧ u <:+: s ∧ u <:+: t)
      (split_into_chunks text maxC ov) := by
  have hsplit : split_into_chunks text maxC ov =
      splitLoop maxC ov (pySplitNl text) [] [] := by
    unfold split_into_chunks
    rw [if_neg (by omega)]
  cases hsp : pySplitNl text with
  | nil => exact absurd hsp (pySplitNl_ne_nil text)
  | cons p₀ t₀ =>
    obtain ⟨hp₀ne, hp₀fix, hp₀len⟩ :=
      hparas p₀ (by rw [hsp]; exact List.mem_cons_self p₀ t₀)
    have hstep : splitLoop maxC ov (p₀ :: t₀) [] [] =
        splitLoop maxC ov t₀ [] p₀ := by
      rw [splitLoop]
      rw [if_neg (by simp)]
      rw [if_pos rfl]
    have hout : split_into_chunks text maxC ov = splitLoop maxC ov t₀ [] p₀ := by
      rw [hsplit, hsp, hstep]
    obtain ⟨hlens, hchain, _, hprog⟩ := splitLoop_master maxC ov hov t₀ [] p₀
      (fun p hp => hparas p (by rw [hsp]; exact List.mem_cons_of_mem p₀ hp))
      hp₀ne (by omega) (stripped_getLast_not_space hp₀ne hp₀fix)
      (by intro ch hch; cases hch) List.chain'_nil (Or.inl rfl)
    have hcost : p₀.length + paraCost t₀ = text.length := by
      have h1 := paraCost_splitNl text
      rw [hsp, paraCost_cons] at h1
      omega
    have h2 := hprog (by omega)
    refine ⟨?_, ?_, ?_⟩
    · rw [hout]; simpa using h2
    · intro ch hch
      rw [hout] at hch
      exact le_trans (hlens ch hch) (by omega)
    · rw [hout]
      exact List.Chain'.imp (fun a b hab => (shares_infix_iff a b).mpr hab) hchain

theorem C3_split_amended_witness :
    2 ≤ (split_into_chunks (strOf "abcd\nefgh\nijkl") 10 1).length ∧
    (∀ ch ∈ split_into_chunks (strOf "abcd\nefgh\nijkl") 10 1,
      ch.length ≤ 10 + 1) ∧
    List.Chain' (fun s t => ∃ u : Str, u ≠ [] ∧ u <:+: s ∧ u <:+: t)
      (split_into_chunks (strOf "abcd\nefgh\nijkl") 10 1) :=
  C3_split_amended (strOf "abcd\nefgh\nijkl") 10 1 (by decide) (by decide)
    (by decide)

end VBot
